import Mathlib

/-!
A shallow embedding of the MapReduce coordinator and worker
(`src/mr/coordinator.go`, `src/mr/worker.go`).

The coordinator owns five task-state buckets.  Go's `map[int]string` /
`map[int]bool` are embedded as association lists `List (Int × String)` /
membership lists `List Int`; Go `delete` is `filter`-out, Go map
assignment `m[k] = v` is overwrite (`cons` after `filter`-out), so key
uniqueness is preserved by construction.  Each RPC handler body is
embedded as an atomic function on the coordinator state, matching the
source's lock discipline (every bucket read/write happens under the
single mutex `c.mu`).  `GetTask`'s blocking waits are represented by
returning `none` (the call does not return in this state and re-evaluates
after some other transition); Go's unspecified map-iteration order is
represented by a pick index choosing an arbitrary element of the bucket.
-/

namespace MapReduce

/-- Task types of the RPC protocol (`TaskType` constants in `rpc.go`,
used by both `coordinator.go` and `worker.go`). -/
inductive TaskType where
  | MAP
  | REDUCE
  | EXIT
deriving DecidableEq, Repr

/-- The `Task` RPC message: `TaskType`, `TaskNum`, `Filename`.
Zero value (a fresh `Task{}` reply in Go) has `TaskNum = 0`,
`Filename = ""`. -/
structure Task where
  taskType : TaskType
  taskNum : Int
  filename : String
deriving DecidableEq, Repr

/-- Go `delete(m, k)` on a `map[int]string` embedded as an association
list: remove the key. -/
def eraseKey (l : List (Int × String)) (k : Int) : List (Int × String) :=
  l.filter (fun p => p.1 ≠ k)

/-- Go `m[k] = v` on a `map[int]string`: overwrite the binding for `k`. -/
def insertKey (l : List (Int × String)) (k : Int) (v : String) : List (Int × String) :=
  (k, v) :: eraseKey l k

/-- Go `delete(m, k)` on a `map[int]bool` used as a set. -/
def eraseR (l : List Int) (k : Int) : List Int :=
  l.filter (fun y => y ≠ k)

/-- Go `m[k] = true` on a `map[int]bool` used as a set. -/
def insertR (l : List Int) (k : Int) : List Int :=
  k :: eraseR l k

/-- The coordinator state: the five task buckets and the reduce fan-out
(struct `Coordinator` in `coordinator.go`; the mutex and notification
channels are concurrency plumbing with no state-machine content). -/
structure Coordinator where
  mapPending : List (Int × String)
  mapInProgress : List (Int × String)
  reducePending : List Int
  reduceInProgress : List Int
  reduceCompleted : List Int
  nReduce : Nat
deriving DecidableEq, Repr

/-- `MakeCoordinator(files, nReduce)`: all Map tasks pending (keyed by
position in `files`), all `nReduce` Reduce tasks pending, nothing in
progress or completed. -/
def MakeCoordinator (files : List String) (nReduce : Nat) : Coordinator :=
  { mapPending := files.enum.map (fun p => ((p.1 : Int), p.2))
    mapInProgress := []
    reducePending := (List.range nReduce).map Int.ofNat
    reduceInProgress := []
    reduceCompleted := []
    nReduce := nReduce }

/-- `Coordinator.Done()`: true iff every bucket except `reduceCompleted`
is empty and `len(reduceCompleted) == nReduce`. -/
def Coordinator.Done (c : Coordinator) : Bool :=
  c.mapPending.isEmpty && c.mapInProgress.isEmpty &&
  c.reducePending.isEmpty && c.reduceInProgress.isEmpty &&
  (c.reduceCompleted.length == c.nReduce)

/-- `Coordinator.GetTask`: one returning evaluation of the handler.
`pickM`/`pickR` choose which pending element Go's map iteration yields.
Result `none` means the call blocks in this state (the handler waits and
re-evaluates after another transition changes the state).  In order:
if `Done()`, reply `EXIT`; else dispatch a pending Map task if any;
else, if no Map task is in progress, dispatch a pending Reduce task if
any; otherwise wait. -/
def Coordinator.GetTask (c : Coordinator) (pickM pickR : Nat) :
    Option (Task × Coordinator) :=
  if c.Done then
    some ({ taskType := .EXIT, taskNum := 0, filename := "" }, c)
  else
    match c.mapPending[pickM % c.mapPending.length]? with
    | some (taskNum, filename) =>
        some ({ taskType := .MAP, taskNum := taskNum, filename := filename },
          { c with
              mapPending := eraseKey c.mapPending taskNum
              mapInProgress := insertKey c.mapInProgress taskNum filename })
    | none =>
        if c.mapInProgress.isEmpty then
          match c.reducePending[pickR % c.reducePending.length]? with
          | some reduceTask =>
              some ({ taskType := .REDUCE, taskNum := reduceTask, filename := "" },
                { c with
                    reducePending := eraseR c.reducePending reduceTask
                    reduceInProgress := insertR c.reduceInProgress reduceTask })
          | none => none
        else none

/-- The error message of `CompleteMapTask` for a task that is not in
progress. -/
def mapErrMsg (taskNum : Int) : String :=
  "worker said map taskNum " ++ toString taskNum ++
  " completed when it was not even in progress"

/-- The error message of `CompleteReduceTask` for a task that is not in
progress. -/
def reduceErrMsg (taskNum : Int) : String :=
  "worker said " ++ toString taskNum ++
  " taskNum reduce completed when it was not even in progress"

/-- `Coordinator.CompleteMapTask(taskNum)`: if the task is not in
`mapInProgress`, return an error and leave the state unchanged;
otherwise delete it from `mapInProgress` (nothing else is recorded).
The second component is the returned Go `error` (`none` = `nil`). -/
def Coordinator.CompleteMapTask (c : Coordinator) (taskNum : Int) :
    Coordinator × Option String :=
  match c.mapInProgress.lookup taskNum with
  | none => (c, some (mapErrMsg taskNum))
  | some _ =>
      ({ c with mapInProgress := eraseKey c.mapInProgress taskNum }, none)

/-- `Coordinator.CompleteReduceTask(taskNum)`: if the task is not in
`reduceInProgress`, return an error and leave the state unchanged;
otherwise add it to `reduceCompleted` and delete it from
`reduceInProgress`. -/
def Coordinator.CompleteReduceTask (c : Coordinator) (taskNum : Int) :
    Coordinator × Option String :=
  if c.reduceInProgress.contains taskNum then
    ({ c with
        reduceCompleted := insertR c.reduceCompleted taskNum
        reduceInProgress := eraseR c.reduceInProgress taskNum }, none)
  else (c, some (reduceErrMsg taskNum))

/-- `Coordinator.track(task)`: the body of the 10-second timeout watcher
after its sleep expires.  If the dispatched task is still in progress it
is moved back to pending (a Map task with the watcher's captured
filename); otherwise nothing changes. -/
def Coordinator.track (c : Coordinator) (task : Task) : Coordinator :=
  match task.taskType with
  | .MAP =>
      match c.mapInProgress.lookup task.taskNum with
      | some _ =>
          { c with
              mapPending := insertKey c.mapPending task.taskNum task.filename
              mapInProgress := eraseKey c.mapInProgress task.taskNum }
      | none => c
  | .REDUCE =>
      if c.reduceInProgress.contains task.taskNum then
        { c with
            reducePending := insertR c.reducePending task.taskNum
            reduceInProgress := eraseR c.reduceInProgress task.taskNum }
      else c
  | .EXIT => c

/-- One atomic coordinator transition: a returning `GetTask`, a
`CompleteMapTask` or `CompleteReduceTask` call (error or not), or a
timeout watcher firing (for an arbitrary task value, over-approximating
the watchers actually scheduled). -/
inductive Step : Coordinator → Coordinator → Prop where
  | getTask (c : Coordinator) (pickM pickR : Nat) (t : Task) (c' : Coordinator) :
      c.GetTask pickM pickR = some (t, c') → Step c c'
  | completeMap (c : Coordinator) (i : Int) :
      Step c (c.CompleteMapTask i).1
  | completeReduce (c : Coordinator) (i : Int) :
      Step c (c.CompleteReduceTask i).1
  | track (c : Coordinator) (t : Task) :
      Step c (c.track t)

/-- Coordinator states reachable from `MakeCoordinator files nReduce`. -/
def Reachable (files : List String) (nReduce : Nat) (c : Coordinator) : Prop :=
  Relation.ReflTransGen Step (MakeCoordinator files nReduce) c

/-! ## Worker (`worker.go`) -/

/-- The `KeyValue` struct produced by the user Map callback. -/
structure KeyValue where
  Key : String
  Value : String
deriving DecidableEq, Repr

/-- UTF-8 encoding of one character, as Go's `[]byte(s)` sees it
(Go strings are UTF-8 encoded). -/
def utf8Bytes (c : Char) : List Nat :=
  let v := c.toNat
  if v < 0x80 then [v]
  else if v < 0x800 then
    [0xC0 ||| (v >>> 6), 0x80 ||| (v &&& 0x3F)]
  else if v < 0x10000 then
    [0xE0 ||| (v >>> 12), 0x80 ||| ((v >>> 6) &&& 0x3F), 0x80 ||| (v &&& 0x3F)]
  else
    [0xF0 ||| (v >>> 18), 0x80 ||| ((v >>> 12) &&& 0x3F),
     0x80 ||| ((v >>> 6) &&& 0x3F), 0x80 ||| (v &&& 0x3F)]

/-- The byte sequence of a Go string (`[]byte(key)`). -/
def strBytes (s : String) : List Nat :=
  s.data.flatMap utf8Bytes

/-- One step of the 32-bit FNV-1a hash (`fnv.New32a`): xor the byte in,
then multiply by the FNV prime 16777619 modulo `2^32`. -/
def fnv32aStep (h b : Nat) : Nat :=
  ((h ^^^ b) * 16777619) % 4294967296

/-- `ihash(key)`: the 32-bit FNV-1a hash of the key's bytes (offset
basis 2166136261), masked with `0x7fffffff`. -/
def ihash (key : String) : Nat :=
  ((strBytes key).foldl fnv32aStep 2166136261) &&& 0x7fffffff

/-- Go's per-pair bucket appending (`intermediateFilesContents[reduceTask]
= append(..., kv)`): the `map[int][]KeyValue` as a function. -/
def addToBucket (m : Nat → List KeyValue) (y : Nat) (kv : KeyValue) :
    Nat → List KeyValue :=
  fun z => if z = y then m z ++ [kv] else m z

/-- The Map case's partition pass: fold every emitted pair into the
bucket `ihash(kv.Key) % nReduce`. -/
def buildBuckets (nReduce : Nat) (kva : List KeyValue) : Nat → List KeyValue :=
  kva.foldl (fun m kv => addToBucket m (ihash kv.Key % nReduce) kv) (fun _ => [])

/-- The intermediate filename `mr-<mapTaskNum>-<reduceTask>`. -/
def intermediateName (taskNum : Int) (reduceTask : Nat) : String :=
  "mr-" ++ toString taskNum ++ "-" ++ toString reduceTask

/-- The files written by the Map case: for each bucket present in the
`map[int][]KeyValue` (i.e. each non-empty bucket `y < nReduce`), the
file `mr-taskNum-y` with that bucket's pairs, tagged with its bucket
index.  Go's map-iteration order over the buckets is rendered as
ascending bucket index; the claims do not depend on file order. -/
def mapTaskFiles (taskNum : Int) (nReduce : Nat) (kva : List KeyValue) :
    List (Nat × String × List KeyValue) :=
  (List.range nReduce).filterMap (fun y =>
    if (buildBuckets nReduce kva y).isEmpty then none
    else some (y, intermediateName taskNum y, buildBuckets nReduce kva y))

/-- `ByKey` ordering used by `sort.Sort(ByKey(kva))`: sorted output
satisfies `¬(kva[j].Key < kva[i].Key)` for `i ≤ j`, i.e. keys ascend
by `≤`.  `mergeSort` realizes one such permutation. -/
def sortByKey (kva : List KeyValue) : List KeyValue :=
  kva.mergeSort (fun a b => a.Key ≤ b.Key)

/-- The Reduce case's output loop over the sorted pair list: take the
run of pairs sharing the head key, emit
`<key> <reducef key values>\n`, continue after the run. -/
def reduceGroupLoop (reducef : String → List String → String) :
    List KeyValue → String
  | [] => ""
  | kv :: rest =>
      kv.Key ++ " " ++
        reducef kv.Key
          (kv.Value :: (rest.takeWhile (fun x => x.Key == kv.Key)).map (·.Value)) ++
        "\n" ++
      reduceGroupLoop reducef (rest.dropWhile (fun x => x.Key == kv.Key))
  termination_by l => l.length
  decreasing_by
    simp only [List.length_cons]
    exact Nat.lt_succ_of_le (List.dropWhile_sublist _).length_le

/-- The contents of `mr-out-<reduceTask>`: sort the decoded pairs by
key, then run the grouping loop. -/
def reduceTaskOutput (reducef : String → List String → String)
    (kva : List KeyValue) : String :=
  reduceGroupLoop reducef (sortByKey kva)

/-- Spec-side combinator: the concatenation of the given lines, each
line being `<key><SPACE><reducer output on all of the key's values><LF>`,
with the values taken from `src` in emission order. -/
def joinLines (reducef : String → List String → String)
    (src : List KeyValue) : List String → String
  | [] => ""
  | k :: ks =>
      k ++ " " ++ reducef k ((src.filter (fun x => x.Key == k)).map (·.Value)) ++ "\n" ++
      joinLines reducef src ks

/-- The reachability invariant tying a coordinator state to its job
parameters: map-task keys lie in `[0, M)`; the three reduce buckets are
duplicate-free, pairwise disjoint, and together hold exactly the tasks
`[0, R)`; and once any Reduce task has been dispatched or completed,
the map buckets are empty. -/
structure Inv (files : List String) (R : Nat) (c : Coordinator) : Prop where
  nred : c.nReduce = R
  mapP_range : ∀ p ∈ c.mapPending, 0 ≤ p.1 ∧ p.1 < (files.length : Int)
  mapI_range : ∀ p ∈ c.mapInProgress, 0 ≤ p.1 ∧ p.1 < (files.length : Int)
  rP_nodup : c.reducePending.Nodup
  rI_nodup : c.reduceInProgress.Nodup
  rC_nodup : c.reduceCompleted.Nodup
  r_cover : ∀ y : Int,
    (y ∈ c.reducePending ∨ y ∈ c.reduceInProgress ∨ y ∈ c.reduceCompleted) ↔
    (0 ≤ y ∧ y < (R : Int))
  r_PI : ∀ y ∈ c.reducePending, y ∉ c.reduceInProgress
  r_PC : ∀ y ∈ c.reducePending, y ∉ c.reduceCompleted
  r_IC : ∀ y ∈ c.reduceInProgress, y ∉ c.reduceCompleted
  barrier : c.reduceInProgress ≠ [] ∨ c.reduceCompleted ≠ [] →
    c.mapPending = [] ∧ c.mapInProgress = []

/-! ## Basic lemmas about the bucket operations -/

theorem mem_eraseR {l : List Int} {k y : Int} :
    y ∈ eraseR l k ↔ y ∈ l ∧ y ≠ k := by
  simp [eraseR, List.mem_filter]

theorem mem_insertR {l : List Int} {k y : Int} :
    y ∈ insertR l k ↔ y = k ∨ y ∈ l := by
  simp only [insertR, List.mem_cons, mem_eraseR]
  constructor
  · rintro (h | ⟨h, _⟩)
    · exact Or.inl h
    · exact Or.inr h
  · rintro (h | h)
    · exact Or.inl h
    · by_cases hk : y = k
      · exact Or.inl hk
      · exact Or.inr ⟨h, hk⟩

theorem nodup_eraseR {l : List Int} (k : Int) (h : l.Nodup) :
    (eraseR l k).Nodup :=
  h.filter _

theorem nodup_insertR {l : List Int} (k : Int) (h : l.Nodup) :
    (insertR l k).Nodup := by
  refine List.Nodup.cons ?_ (h.filter _)
  intro hmem
  exact (mem_eraseR.mp hmem).2 rfl

theorem mem_eraseKey {l : List (Int × String)} {k : Int} {p : Int × String} :
    p ∈ eraseKey l k ↔ p ∈ l ∧ p.1 ≠ k := by
  simp [eraseKey, List.mem_filter]

theorem mem_insertKey {l : List (Int × String)} {k : Int} {v : String}
    {p : Int × String} :
    p ∈ insertKey l k v ↔ p = (k, v) ∨ (p ∈ l ∧ p.1 ≠ k) := by
  simp [insertKey, List.mem_cons, mem_eraseKey]

theorem lookup_eq_none_iff {l : List (Int × String)} {k : Int} :
    l.lookup k = none ↔ ∀ p ∈ l, p.1 ≠ k := by
  induction l with
  | nil => simp
  | cons q t ih =>
      obtain ⟨a, b⟩ := q
      by_cases hk : k = a
      · subst hk
        simp [List.lookup_cons]
      · have hb : (k == a) = false := beq_eq_false_iff_ne.mpr hk
        simp only [List.lookup_cons, hb, List.mem_cons]
        constructor
        · intro h p hp
          rcases hp with hp | hp
          · subst hp; simpa using fun hc => hk hc.symm
          · exact ih.mp h p hp
        · intro h
          exact ih.mpr fun p hp => h p (Or.inr hp)

theorem mem_of_lookup_eq_some {l : List (Int × String)} {k : Int} {v : String}
    (h : l.lookup k = some v) : (k, v) ∈ l := by
  induction l with
  | nil => simp at h
  | cons q t ih =>
      obtain ⟨a, b⟩ := q
      by_cases hk : k = a
      · subst hk
        simp only [List.lookup_cons, beq_self_eq_true] at h
        cases h
        exact List.mem_cons_self _ _
      · have hb : (k == a) = false := beq_eq_false_iff_ne.mpr hk
        simp only [List.lookup_cons, hb] at h
        exact List.mem_cons_of_mem _ (ih h)

theorem pick_eq_none_iff {α : Type} (l : List α) (n : Nat) :
    l[n % l.length]? = none ↔ l = [] := by
  constructor
  · intro h
    by_contra hne
    have hlen : 0 < l.length := List.length_pos.mpr hne
    rw [List.getElem?_eq_getElem (Nat.mod_lt _ hlen)] at h
    exact Option.noConfusion h
  · intro h
    subst h
    simp

theorem done_iff (c : Coordinator) :
    c.Done = true ↔ c.mapPending = [] ∧ c.mapInProgress = [] ∧
      c.reducePending = [] ∧ c.reduceInProgress = [] ∧
      c.reduceCompleted.length = c.nReduce := by
  simp [Coordinator.Done, List.isEmpty_iff, and_assoc]

/-! ## Claim theorems: coordinator state machine -/

/-- C1.  Phase barrier: whenever a `GetTask` evaluation dispatches a
Reduce task (returns a `REDUCE` reply, moving that task from pending to
in-progress), at that moment the map-pending and map-in-progress buckets
are both empty, i.e. every Map task is completed.  Holds for every
coordinator state and every pick of Go's map-iteration order. -/
theorem getTask_reduce_barrier (c : Coordinator) (pickM pickR : Nat)
    (t : Task) (c₂ : Coordinator)
    (h : c.GetTask pickM pickR = some (t, c₂))
    (ht : t.taskType = TaskType.REDUCE) :
    c.mapPending = [] ∧ c.mapInProgress = [] ∧
    t.taskNum ∈ c.reducePending ∧ t.taskNum ∈ c₂.reduceInProgress := by
  unfold Coordinator.GetTask at h
  by_cases hd : c.Done = true
  · rw [if_pos hd] at h
    cases h
    simp at ht
  · rw [if_neg hd] at h
    rcases hp : c.mapPending[pickM % c.mapPending.length]? with _ | ⟨a, b⟩
    · simp only [hp] at h
      by_cases hmi : c.mapInProgress.isEmpty = true
      · simp only [hmi, if_true] at h
        rcases hr : c.reducePending[pickR % c.reducePending.length]? with _ | r
        · simp only [hr] at h
          exact Option.noConfusion h
        · simp only [hr, Option.some.injEq, Prod.mk.injEq] at h
          obtain ⟨hteq, hceq⟩ := h
          subst hceq
          rw [← hteq]
          exact ⟨(pick_eq_none_iff _ _).mp hp, List.isEmpty_iff.mp hmi,
                 List.getElem?_mem hr, mem_insertR.mpr (Or.inl rfl)⟩
      · simp only [hmi, if_false] at h
        simp at h
    · simp only [hp, Option.some.injEq, Prod.mk.injEq] at h
      obtain ⟨hteq, hceq⟩ := h
      rw [← hteq] at ht
      simp at ht

/-- C1 witness: a concrete state with all Maps done and Reduce task 0
pending, where `GetTask` dispatches it. -/
theorem getTask_reduce_barrier_witness :
    (⟨[], [], [0], [], [], 1⟩ : Coordinator).mapPending = [] ∧
    (⟨[], [], [0], [], [], 1⟩ : Coordinator).mapInProgress = [] ∧
    ((0 : Int) ∈ (⟨[], [], [0], [], [], 1⟩ : Coordinator).reducePending) ∧
    ((0 : Int) ∈ (⟨[], [], [], [0], [], 1⟩ : Coordinator).reduceInProgress) :=
  getTask_reduce_barrier ⟨[], [], [0], [], [], 1⟩ 0 0
    ⟨.REDUCE, 0, ""⟩ ⟨[], [], [], [0], [], 1⟩ (by decide) rfl

/-- C2.  Terminal EXIT: in a terminal state (`Done()` true), every
`GetTask` evaluation returns an `EXIT` reply and leaves the state
unchanged (no task moves to in-progress), and every further transition
keeps the state terminal. -/
theorem terminal_getTask_exit (c : Coordinator) (hDone : c.Done = true) :
    (∀ pickM pickR : Nat, c.GetTask pickM pickR =
        some ({ taskType := TaskType.EXIT, taskNum := 0, filename := "" }, c)) ∧
    (∀ c₂ : Coordinator, Step c c₂ → c₂.Done = true) := by
  obtain ⟨hmp, hmi, hrp, hri, hrc⟩ := (done_iff c).mp hDone
  have hget : ∀ pickM pickR : Nat, c.GetTask pickM pickR =
      some ({ taskType := TaskType.EXIT, taskNum := 0, filename := "" }, c) := by
    intro pickM pickR
    unfold Coordinator.GetTask
    rw [if_pos hDone]
  refine ⟨hget, ?_⟩
  intro c₂ hstep
  have hcc : c₂ = c := by
    cases hstep
    case getTask pickM pickR t hg =>
      rw [hget pickM pickR] at hg
      cases hg
      rfl
    case completeMap i =>
      simp [Coordinator.CompleteMapTask, hmi]
    case completeReduce i =>
      simp [Coordinator.CompleteReduceTask, hri]
    case track t =>
      cases htt : t.taskType <;>
        simp [Coordinator.track, htt, hmi, hri]
  rw [hcc]
  exact hDone

/-- C2 witness: the terminal one-reduce-job state. -/
theorem terminal_getTask_exit_witness :
    (∀ pickM pickR : Nat,
      (⟨[], [], [], [], [0], 1⟩ : Coordinator).GetTask pickM pickR =
        some (⟨TaskType.EXIT, 0, ""⟩, ⟨[], [], [], [], [0], 1⟩)) ∧
    (∀ c₂ : Coordinator,
      Step (⟨[], [], [], [], [0], 1⟩ : Coordinator) c₂ → c₂.Done = true) :=
  terminal_getTask_exit ⟨[], [], [], [], [0], 1⟩ (by decide)

/-- C3.  Stale completion rejected atomically: `CompleteMapTask i`
returns an error exactly when `(MAP, i)` is not in the in-progress
bucket, and in that case the coordinator state is unchanged; and
symmetrically for `CompleteReduceTask i`. -/
theorem completeTask_stale_error (c : Coordinator) (i : Int) :
    ((c.CompleteMapTask i).2.isSome ↔ ∀ p ∈ c.mapInProgress, p.1 ≠ i) ∧
    ((c.CompleteMapTask i).2.isSome → (c.CompleteMapTask i).1 = c) ∧
    ((c.CompleteReduceTask i).2.isSome ↔ i ∉ c.reduceInProgress) ∧
    ((c.CompleteReduceTask i).2.isSome → (c.CompleteReduceTask i).1 = c) := by
  refine ⟨?_, ?_, ?_, ?_⟩
  · rcases hl : c.mapInProgress.lookup i with _ | v
    · simp only [Coordinator.CompleteMapTask, hl, Option.isSome_some, true_iff]
      exact fun p hp => lookup_eq_none_iff.mp hl p hp
    · have hm := mem_of_lookup_eq_some hl
      simp only [Coordinator.CompleteMapTask, hl]
      exact ⟨fun hfalse => Bool.noConfusion hfalse,
             fun hall => ((hall (i, v) hm) rfl).elim⟩
  · rcases hl : c.mapInProgress.lookup i with _ | v <;>
      simp [Coordinator.CompleteMapTask, hl]
  · by_cases hm : i ∈ c.reduceInProgress
    · simp [Coordinator.CompleteReduceTask, hm]
    · simp [Coordinator.CompleteReduceTask, hm]
  · by_cases hm : i ∈ c.reduceInProgress
    · simp [Coordinator.CompleteReduceTask, hm]
    · simp [Coordinator.CompleteReduceTask, hm]

/-- C3 witness: with only `(MAP, 0)` and `(REDUCE, 0)` in progress,
completing task 1 errors and changes nothing, in both phases. -/
theorem completeTask_stale_error_witness :
    (((⟨[], [(0, "f")], [], [0], [], 1⟩ : Coordinator).CompleteMapTask 1).2.isSome ↔
       ∀ p ∈ (⟨[], [(0, "f")], [], [0], [], 1⟩ : Coordinator).mapInProgress,
         p.1 ≠ (1 : Int)) ∧
    (((⟨[], [(0, "f")], [], [0], [], 1⟩ : Coordinator).CompleteMapTask 1).2.isSome →
      ((⟨[], [(0, "f")], [], [0], [], 1⟩ : Coordinator).CompleteMapTask 1).1 =
        ⟨[], [(0, "f")], [], [0], [], 1⟩) ∧
    (((⟨[], [(0, "f")], [], [0], [], 1⟩ : Coordinator).CompleteReduceTask 1).2.isSome ↔
       (1 : Int) ∉ (⟨[], [(0, "f")], [], [0], [], 1⟩ : Coordinator).reduceInProgress) ∧
    (((⟨[], [(0, "f")], [], [0], [], 1⟩ : Coordinator).CompleteReduceTask 1).2.isSome →
      ((⟨[], [(0, "f")], [], [0], [], 1⟩ : Coordinator).CompleteReduceTask 1).1 =
        ⟨[], [(0, "f")], [], [0], [], 1⟩) :=
  completeTask_stale_error ⟨[], [(0, "f")], [], [0], [], 1⟩ 1

/-- C4.  Timeout watcher: when the watcher for a dispatched task `t`
fires, if `t` is still in progress it is moved back to pending (a Map
task re-pended under its original filename, carried in `t`), and if it
is no longer in progress the watcher changes nothing. -/
theorem track_timeout_step (c : Coordinator) (t : Task) :
    (t.taskType = TaskType.MAP →
       ((∀ p ∈ c.mapInProgress, p.1 ≠ t.taskNum) → c.track t = c) ∧
       (∀ v, c.mapInProgress.lookup t.taskNum = some v →
          c.track t =
            { c with
                mapPending := insertKey c.mapPending t.taskNum t.filename
                mapInProgress := eraseKey c.mapInProgress t.taskNum })) ∧
    (t.taskType = TaskType.REDUCE →
       (t.taskNum ∉ c.reduceInProgress → c.track t = c) ∧
       (t.taskNum ∈ c.reduceInProgress →
          c.track t =
            { c with
                reducePending := insertR c.reducePending t.taskNum
                reduceInProgress := eraseR c.reduceInProgress t.taskNum })) := by
  constructor
  · intro hmap
    constructor
    · intro hnone
      simp [Coordinator.track, hmap, lookup_eq_none_iff.mpr hnone]
    · intro v hv
      simp [Coordinator.track, hmap, hv]
  · intro hred
    constructor
    · intro hnotmem
      simp [Coordinator.track, hred, hnotmem]
    · intro hmem
      simp [Coordinator.track, hred, hmem]

/-- C4 witness: a Map watcher fires while `(MAP, 0)` is still in
progress and re-pends it; a Reduce watcher for the not-in-progress task
1 changes nothing. -/
theorem track_timeout_step_witness :
    (⟨[], [(0, "f")], [], [], [], 1⟩ : Coordinator).track ⟨TaskType.MAP, 0, "f"⟩ =
      { mapPending := insertKey [] 0 "f",
        mapInProgress := eraseKey [(0, "f")] 0,
        reducePending := [], reduceInProgress := [], reduceCompleted := [],
        nReduce := 1 } ∧
    (⟨[], [(0, "f")], [], [], [], 1⟩ : Coordinator).track ⟨TaskType.REDUCE, 1, ""⟩ =
      ⟨[], [(0, "f")], [], [], [], 1⟩ := by
  constructor
  · exact ((track_timeout_step ⟨[], [(0, "f")], [], [], [], 1⟩
      ⟨TaskType.MAP, 0, "f"⟩).1 rfl).2 "f" (by decide)
  · exact ((track_timeout_step ⟨[], [(0, "f")], [], [], [], 1⟩
      ⟨TaskType.REDUCE, 1, ""⟩).2 rfl).1 (by decide)

/-- One transition out of a state with both map buckets empty keeps
them empty: no operation ever adds a Map task back. -/
theorem step_maps_empty (c c₂ : Coordinator) (hp : c.mapPending = [])
    (hi : c.mapInProgress = []) (h : Step c c₂) :
    c₂.mapPending = [] ∧ c₂.mapInProgress = [] := by
  cases h
  case getTask pickM pickR t hg =>
    unfold Coordinator.GetTask at hg
    by_cases hd : c.Done = true
    · rw [if_pos hd] at hg
      cases hg
      exact ⟨hp, hi⟩
    · rw [if_neg hd] at hg
      simp only [hp, List.getElem?_nil] at hg
      simp only [hi, List.isEmpty_nil, if_true] at hg
      rcases hr : c.reducePending[pickR % c.reducePending.length]? with _ | r
      · rw [hr] at hg
        exact Option.noConfusion hg
      · rw [hr] at hg
        simp only [Option.some.injEq, Prod.mk.injEq] at hg
        obtain ⟨_, hceq⟩ := hg
        subst hceq
        exact ⟨rfl, rfl⟩
  case completeMap i =>
    have hcm : c.CompleteMapTask i = (c, some (mapErrMsg i)) := by
      unfold Coordinator.CompleteMapTask
      rw [hi]
      rfl
    rw [hcm]
    exact ⟨hp, hi⟩
  case completeReduce i =>
    by_cases hm : i ∈ c.reduceInProgress <;>
      simp [Coordinator.CompleteReduceTask, hm, hp, hi]
  case track t =>
    cases htt : t.taskType
    · simp [Coordinator.track, htt, hi, hp]
    · by_cases hm : t.taskNum ∈ c.reduceInProgress <;>
        simp [Coordinator.track, htt, hm, hp, hi]
    · simp [Coordinator.track, htt, hp, hi]

/-- C9.  Map-phase completion is irreversible: from any state in which
the map-pending and map-in-progress buckets are both empty, every
sequence of coordinator transitions (task dispatches, completion
reports, timeout watchers) leaves both buckets empty — no Map task ever
re-enters pending or in-progress. -/
theorem maps_done_irreversible (c c₂ : Coordinator)
    (hp : c.mapPending = []) (hi : c.mapInProgress = [])
    (hsteps : Relation.ReflTransGen Step c c₂) :
    c₂.mapPending = [] ∧ c₂.mapInProgress = [] := by
  induction hsteps with
  | refl => exact ⟨hp, hi⟩
  | tail hab hbc ih => exact step_maps_empty _ _ ih.1 ih.2 hbc

/-- C9 witness: dispatching Reduce task 0 out of an all-maps-done state
leaves the map buckets empty. -/
theorem maps_done_irreversible_witness :
    (⟨[], [], [], [0], [], 1⟩ : Coordinator).mapPending = [] ∧
    (⟨[], [], [], [0], [], 1⟩ : Coordinator).mapInProgress = [] :=
  maps_done_irreversible ⟨[], [], [0], [], [], 1⟩ ⟨[], [], [], [0], [], 1⟩
    rfl rfl
    (Relation.ReflTransGen.single
      (Step.getTask ⟨[], [], [0], [], [], 1⟩ 0 0 ⟨TaskType.REDUCE, 0, ""⟩
        ⟨[], [], [], [0], [], 1⟩ (by decide)))

theorem inv_init (files : List String) (R : Nat) :
    Inv files R (MakeCoordinator files R) := by
  have hmp : (MakeCoordinator files R).mapPending =
      files.enum.map (fun p => ((p.1 : Int), p.2)) := rfl
  have hrp : (MakeCoordinator files R).reducePending =
      (List.range R).map Int.ofNat := rfl
  refine ⟨rfl, ?_, ?_, ?_, ?_, ?_, ?_, ?_, ?_, ?_, ?_⟩
  · intro p hp
    rw [hmp, List.mem_map] at hp
    obtain ⟨⟨i, f⟩, hmem, rfl⟩ := hp
    have hb := (List.mem_enum hmem).1
    refine ⟨Int.ofNat_nonneg i, ?_⟩
    show (i : Int) < (files.length : Int)
    exact_mod_cast hb
  · intro p hp
    simp [MakeCoordinator] at hp
  · rw [hrp]
    refine List.Nodup.map ?_ (List.nodup_range R)
    intro a b h
    simp only [Int.ofNat_eq_coe] at h
    omega
  · simp [MakeCoordinator]
  · simp [MakeCoordinator]
  · intro y
    rw [hrp]
    have h2 : y ∈ (MakeCoordinator files R).reduceInProgress ↔ False := by
      simp [MakeCoordinator]
    have h3 : y ∈ (MakeCoordinator files R).reduceCompleted ↔ False := by
      simp [MakeCoordinator]
    rw [h2, h3, List.mem_map]
    simp only [List.mem_range, or_false, Int.ofNat_eq_coe]
    constructor
    · rintro ⟨n, hn, rfl⟩
      constructor <;> omega
    · rintro ⟨h0, hR⟩
      refine ⟨y.toNat, ?_, ?_⟩ <;> omega
  · intro y _ hy
    simp [MakeCoordinator] at hy
  · intro y _ hy
    simp [MakeCoordinator] at hy
  · intro y hy
    simp [MakeCoordinator] at hy
  · rintro (h | h) <;> simp [MakeCoordinator] at h

theorem inv_step (files : List String) (R : Nat) (c c₂ : Coordinator)
    (hinv : Inv files R c) (h : Step c c₂) : Inv files R c₂ := by
  cases h
  case getTask pickM pickR t hg =>
    unfold Coordinator.GetTask at hg
    by_cases hd : c.Done = true
    · rw [if_pos hd] at hg
      cases hg
      exact hinv
    · rw [if_neg hd] at hg
      rcases hp : c.mapPending[pickM % c.mapPending.length]? with _ | ⟨a, b⟩
      · simp only [hp] at hg
        by_cases hmi : c.mapInProgress.isEmpty = true
        · simp only [hmi, if_true] at hg
          rcases hr : c.reducePending[pickR % c.reducePending.length]? with _ | r
          · rw [hr] at hg
            exact Option.noConfusion hg
          · rw [hr] at hg
            simp only [Option.some.injEq, Prod.mk.injEq] at hg
            obtain ⟨_, hceq⟩ := hg
            subst hceq
            have hmp : c.mapPending = [] := (pick_eq_none_iff _ _).mp hp
            have hmi0 : c.mapInProgress = [] := List.isEmpty_iff.mp hmi
            have hrP : r ∈ c.reducePending := List.getElem?_mem hr
            refine ⟨hinv.nred, ?_, ?_, nodup_eraseR r hinv.rP_nodup,
              nodup_insertR r hinv.rI_nodup, hinv.rC_nodup, ?_, ?_, ?_, ?_, ?_⟩
            · intro p hp2
              exact hinv.mapP_range p hp2
            · intro p hp2
              exact hinv.mapI_range p hp2
            · intro y
              by_cases hy : y = r
              · constructor
                · intro _
                  rw [hy]
                  exact (hinv.r_cover r).mp (Or.inl hrP)
                · intro _
                  exact Or.inr (Or.inl (mem_insertR.mpr (Or.inl hy)))
              · constructor
                · rintro (hP | hI | hC)
                  · exact (hinv.r_cover y).mp (Or.inl (mem_eraseR.mp hP).1)
                  · rcases mem_insertR.mp hI with h0 | hI2
                    · exact absurd h0 hy
                    · exact (hinv.r_cover y).mp (Or.inr (Or.inl hI2))
                  · exact (hinv.r_cover y).mp (Or.inr (Or.inr hC))
                · intro hb
                  rcases (hinv.r_cover y).mpr hb with hP | hI | hC
                  · exact Or.inl (mem_eraseR.mpr ⟨hP, hy⟩)
                  · exact Or.inr (Or.inl (mem_insertR.mpr (Or.inr hI)))
                  · exact Or.inr (Or.inr hC)
            · intro y hyP hyI
              obtain ⟨hyP0, hyne⟩ := mem_eraseR.mp hyP
              rcases mem_insertR.mp hyI with h0 | hyI0
              · exact hyne h0
              · exact hinv.r_PI y hyP0 hyI0
            · intro y hyP hyC
              exact hinv.r_PC y (mem_eraseR.mp hyP).1 hyC
            · intro y hyI hyC
              rcases mem_insertR.mp hyI with h0 | hyI0
              · rw [h0] at hyC
                exact hinv.r_PC r hrP hyC
              · exact hinv.r_IC y hyI0 hyC
            · intro _
              exact ⟨hmp, hmi0⟩
        · simp only [hmi, if_false] at hg
          simp at hg
      · simp only [hp, Option.some.injEq, Prod.mk.injEq] at hg
        obtain ⟨_, hceq⟩ := hg
        subst hceq
        have haP : (a, b) ∈ c.mapPending := List.getElem?_mem hp
        refine ⟨hinv.nred, ?_, ?_, hinv.rP_nodup, hinv.rI_nodup, hinv.rC_nodup,
          hinv.r_cover, hinv.r_PI, hinv.r_PC, hinv.r_IC, ?_⟩
        · intro p hp2
          exact hinv.mapP_range p (mem_eraseKey.mp hp2).1
        · intro p hp2
          rcases mem_insertKey.mp hp2 with h0 | ⟨hmem, _⟩
          · subst h0
            exact hinv.mapP_range (a, b) haP
          · exact hinv.mapI_range p hmem
        · intro hne
          obtain ⟨hmp0, _⟩ := hinv.barrier hne
          rw [hmp0] at haP
          exact absurd haP (List.not_mem_nil _)
  case completeMap i =>
    rcases hl : c.mapInProgress.lookup i with _ | v
    · have hc2 : (c.CompleteMapTask i).1 = c := by
        simp [Coordinator.CompleteMapTask, hl]
      rw [hc2]
      exact hinv
    · have hc2 : (c.CompleteMapTask i).1 =
          { c with mapInProgress := eraseKey c.mapInProgress i } := by
        simp [Coordinator.CompleteMapTask, hl]
      rw [hc2]
      refine ⟨hinv.nred, hinv.mapP_range, ?_, hinv.rP_nodup, hinv.rI_nodup,
        hinv.rC_nodup, hinv.r_cover, hinv.r_PI, hinv.r_PC, hinv.r_IC, ?_⟩
      · intro p hp2
        exact hinv.mapI_range p (mem_eraseKey.mp hp2).1
      · intro hne
        obtain ⟨h1, h2⟩ := hinv.barrier hne
        exact ⟨h1, by simp [h2, eraseKey]⟩
  case completeReduce i =>
    by_cases hm : i ∈ c.reduceInProgress
    · have hc2 : (c.CompleteReduceTask i).1 =
          { c with reduceCompleted := insertR c.reduceCompleted i,
                   reduceInProgress := eraseR c.reduceInProgress i } := by
        simp [Coordinator.CompleteReduceTask, hm]
      rw [hc2]
      refine ⟨hinv.nred, hinv.mapP_range, hinv.mapI_range, hinv.rP_nodup,
        nodup_eraseR i hinv.rI_nodup, nodup_insertR i hinv.rC_nodup,
        ?_, ?_, ?_, ?_, ?_⟩
      · intro y
        by_cases hy : y = i
        · constructor
          · intro _
            rw [hy]
            exact (hinv.r_cover i).mp (Or.inr (Or.inl hm))
          · intro _
            exact Or.inr (Or.inr (mem_insertR.mpr (Or.inl hy)))
        · constructor
          · rintro (hP | hI | hC)
            · exact (hinv.r_cover y).mp (Or.inl hP)
            · exact (hinv.r_cover y).mp (Or.inr (Or.inl (mem_eraseR.mp hI).1))
            · rcases mem_insertR.mp hC with h0 | hC0
              · exact absurd h0 hy
              · exact (hinv.r_cover y).mp (Or.inr (Or.inr hC0))
          · intro hb
            rcases (hinv.r_cover y).mpr hb with hP | hI | hC
            · exact Or.inl hP
            · exact Or.inr (Or.inl (mem_eraseR.mpr ⟨hI, hy⟩))
            · exact Or.inr (Or.inr (mem_insertR.mpr (Or.inr hC)))
      · intro y hyP hyI
        exact hinv.r_PI y hyP (mem_eraseR.mp hyI).1
      · intro y hyP hyC
        rcases mem_insertR.mp hyC with h0 | hyC0
        · rw [h0] at hyP
          exact hinv.r_PI i hyP hm
        · exact hinv.r_PC y hyP hyC0
      · intro y hyI hyC
        obtain ⟨hyI0, hyne⟩ := mem_eraseR.mp hyI
        rcases mem_insertR.mp hyC with h0 | hyC0
        · exact hyne h0
        · exact hinv.r_IC y hyI0 hyC0
      · intro _
        exact hinv.barrier (Or.inl (List.ne_nil_of_mem hm))
    · have hc2 : (c.CompleteReduceTask i).1 = c := by
        simp [Coordinator.CompleteReduceTask, hm]
      rw [hc2]
      exact hinv
  case track t =>
    cases htt : t.taskType
    case MAP =>
      rcases hl : c.mapInProgress.lookup t.taskNum with _ | v
      · have hc2 : c.track t = c := by
          simp [Coordinator.track, htt, hl]
        rw [hc2]
        exact hinv
      · have hc2 : c.track t =
            { c with
                mapPending := insertKey c.mapPending t.taskNum t.filename
                mapInProgress := eraseKey c.mapInProgress t.taskNum } := by
          simp [Coordinator.track, htt, hl]
        rw [hc2]
        refine ⟨hinv.nred, ?_, ?_, hinv.rP_nodup, hinv.rI_nodup, hinv.rC_nodup,
          hinv.r_cover, hinv.r_PI, hinv.r_PC, hinv.r_IC, ?_⟩
        · intro p hp2
          rcases mem_insertKey.mp hp2 with h0 | ⟨hmem, _⟩
          · subst h0
            exact hinv.mapI_range (t.taskNum, v) (mem_of_lookup_eq_some hl)
          · exact hinv.mapP_range p hmem
        · intro p hp2
          exact hinv.mapI_range p (mem_eraseKey.mp hp2).1
        · intro hne
          obtain ⟨_, h2⟩ := hinv.barrier hne
          have := mem_of_lookup_eq_some hl
          rw [h2] at this
          exact absurd this (List.not_mem_nil _)
    case REDUCE =>
      by_cases hm : t.taskNum ∈ c.reduceInProgress
      · have hc2 : c.track t =
            { c with
                reducePending := insertR c.reducePending t.taskNum
                reduceInProgress := eraseR c.reduceInProgress t.taskNum } := by
          simp [Coordinator.track, htt, hm]
        rw [hc2]
        refine ⟨hinv.nred, hinv.mapP_range, hinv.mapI_range,
          nodup_insertR _ hinv.rP_nodup, nodup_eraseR _ hinv.rI_nodup,
          hinv.rC_nodup, ?_, ?_, ?_, ?_, ?_⟩
        · intro y
          by_cases hy : y = t.taskNum
          · constructor
            · intro _
              rw [hy]
              exact (hinv.r_cover t.taskNum).mp (Or.inr (Or.inl hm))
            · intro _
              exact Or.inl (mem_insertR.mpr (Or.inl hy))
          · constructor
            · rintro (hP | hI | hC)
              · rcases mem_insertR.mp hP with h0 | hP0
                · exact absurd h0 hy
                · exact (hinv.r_cover y).mp (Or.inl hP0)
              · exact (hinv.r_cover y).mp (Or.inr (Or.inl (mem_eraseR.mp hI).1))
              · exact (hinv.r_cover y).mp (Or.inr (Or.inr hC))
            · intro hb
              rcases (hinv.r_cover y).mpr hb with hP | hI | hC
              · exact Or.inl (mem_insertR.mpr (Or.inr hP))
              · exact Or.inr (Or.inl (mem_eraseR.mpr ⟨hI, hy⟩))
              · exact Or.inr (Or.inr hC)
        · intro y hyP hyI
          obtain ⟨hyI0, hyne⟩ := mem_eraseR.mp hyI
          rcases mem_insertR.mp hyP with h0 | hyP0
          · exact hyne h0
          · exact hinv.r_PI y hyP0 hyI0
        · intro y hyP hyC
          rcases mem_insertR.mp hyP with h0 | hyP0
          · rw [h0] at hyC
            exact hinv.r_IC t.taskNum hm hyC
          · exact hinv.r_PC y hyP0 hyC
        · intro y hyI hyC
          exact hinv.r_IC y (mem_eraseR.mp hyI).1 hyC
        · intro hne
          refine hinv.barrier ?_
          rcases hne with h | h
          · obtain ⟨y, hy⟩ := List.exists_mem_of_ne_nil _ h
            exact Or.inl (List.ne_nil_of_mem (mem_eraseR.mp hy).1)
          · exact Or.inr h
      · have hc2 : c.track t = c := by
          simp [Coordinator.track, htt, hm]
        rw [hc2]
        exact hinv
    case EXIT =>
      have hc2 : c.track t = c := by
        simp [Coordinator.track, htt]
      rw [hc2]
      exact hinv

theorem reachable_inv (files : List String) (R : Nat) (c : Coordinator)
    (h : Reachable files R c) : Inv files R c := by
  induction h with
  | refl => exact inv_init files R
  | tail hab hbc ih => exact inv_step files R _ _ ih hbc

/-- C5.  `Done()` characterization: in every reachable state of a job
with `R ≥ 1` Reduce tasks, `Done()` returns true exactly when every one
of the `R` Reduce tasks is completed. -/
theorem Done_iff_all_reduce_completed (files : List String) (R : Nat)
    (c : Coordinator) (hR : 1 ≤ R) (hreach : Reachable files R c) :
    c.Done = true ↔
      ∀ y : Int, 0 ≤ y → y < (R : Int) → y ∈ c.reduceCompleted := by
  have hinv := reachable_inv files R c hreach
  constructor
  · intro hd y h0 hy
    obtain ⟨_, _, hrp, hri, _⟩ := (done_iff c).mp hd
    rcases (hinv.r_cover y).mpr ⟨h0, hy⟩ with hP | hI | hC
    · rw [hrp] at hP
      exact absurd hP (List.not_mem_nil _)
    · rw [hri] at hI
      exact absurd hI (List.not_mem_nil _)
    · exact hC
  · intro hall
    have hrp : c.reducePending = [] := by
      by_contra hne
      obtain ⟨y, hy⟩ := List.exists_mem_of_ne_nil _ hne
      have hb := (hinv.r_cover y).mp (Or.inl hy)
      exact hinv.r_PC y hy (hall y hb.1 hb.2)
    have hri : c.reduceInProgress = [] := by
      by_contra hne
      obtain ⟨y, hy⟩ := List.exists_mem_of_ne_nil _ hne
      have hb := (hinv.r_cover y).mp (Or.inr (Or.inl hy))
      exact hinv.r_IC y hy (hall y hb.1 hb.2)
    have hfin : c.reduceCompleted.toFinset = Finset.Ico (0 : Int) (R : Int) := by
      apply Finset.Subset.antisymm
      · intro y hy
        have hb := (hinv.r_cover y).mp
          (Or.inr (Or.inr (List.mem_toFinset.mp hy)))
        rw [Finset.mem_Ico]
        exact hb
      · intro y hy
        rw [Finset.mem_Ico] at hy
        exact List.mem_toFinset.mpr (hall y hy.1 hy.2)
    have hlen : c.reduceCompleted.length = R := by
      have h2 := List.toFinset_card_of_nodup hinv.rC_nodup
      rw [hfin, Int.card_Ico] at h2
      omega
    have hC_ne : c.reduceCompleted ≠ [] := by
      have h0 : (0 : Int) ∈ c.reduceCompleted :=
        hall 0 le_rfl (by exact_mod_cast hR)
      exact List.ne_nil_of_mem h0
    obtain ⟨hmp, hmi⟩ := hinv.barrier (Or.inr hC_ne)
    rw [done_iff]
    exact ⟨hmp, hmi, hrp, hri, by rw [hlen, hinv.nred]⟩

/-- C5 witness: dispatching and completing the single Reduce task of an
empty-input job reaches a state where the characterization applies. -/
theorem Done_iff_all_reduce_completed_witness :
    ((⟨[], [], [], [0], [], 1⟩ : Coordinator).CompleteReduceTask 0).1.Done = true ↔
      ∀ y : Int, 0 ≤ y → y < ((1 : Nat) : Int) →
        y ∈ ((⟨[], [], [], [0], [], 1⟩ : Coordinator).CompleteReduceTask 0).1.reduceCompleted :=
  Done_iff_all_reduce_completed [] 1 _ le_rfl
    (Relation.ReflTransGen.tail
      (Relation.ReflTransGen.single
        (Step.getTask (MakeCoordinator [] 1) 0 0 ⟨TaskType.REDUCE, 0, ""⟩
          ⟨[], [], [], [0], [], 1⟩ (by decide)))
      (Step.completeReduce ⟨[], [], [], [0], [], 1⟩ 0))

/-- C10.  The coordinator records no completed Map tasks: a successful
`CompleteMapTask` only deletes from the in-progress bucket, and every
report for a task not in progress — in particular any out-of-range
index `i < 0` or `i ≥ M` in a reachable state — is rejected with the
same not-in-progress error and no state change. -/
theorem completeMap_no_record (files : List String) (R : Nat)
    (c : Coordinator) (i : Int) :
    ((∀ p ∈ c.mapInProgress, p.1 ≠ i) →
       c.CompleteMapTask i = (c, some (mapErrMsg i))) ∧
    (∀ v, c.mapInProgress.lookup i = some v →
       c.CompleteMapTask i =
         ({ c with mapInProgress := eraseKey c.mapInProgress i }, none)) ∧
    (Reachable files R c → (i < 0 ∨ (files.length : Int) ≤ i) →
       c.CompleteMapTask i = (c, some (mapErrMsg i))) := by
  refine ⟨?_, ?_, ?_⟩
  · intro hnone
    simp [Coordinator.CompleteMapTask, lookup_eq_none_iff.mpr hnone]
  · intro v hv
    simp [Coordinator.CompleteMapTask, hv]
  · intro hreach hout
    have hinv := reachable_inv files R c hreach
    have hnone : ∀ p ∈ c.mapInProgress, p.1 ≠ i := by
      intro p hp heq
      have hb := hinv.mapI_range p hp
      rw [heq] at hb
      omega
    simp [Coordinator.CompleteMapTask, lookup_eq_none_iff.mpr hnone]

/-- C10 witness: on the freshly constructed one-file job, completing
Map task 5 (out of range) is rejected with the not-in-progress error
and an unchanged state. -/
theorem completeMap_no_record_witness :
    (MakeCoordinator ["f"] 1).CompleteMapTask 5 =
      (MakeCoordinator ["f"] 1, some (mapErrMsg 5)) :=
  (completeMap_no_record ["f"] 1 (MakeCoordinator ["f"] 1) 5).2.2
    Relation.ReflTransGen.refl (Or.inr (by decide))

/-- C8 counterexample: constructed with no input files and `R = 1`, the
first `GetTask` call dispatches Reduce task 0 — it does not return
`EXIT` as the claim states. -/
theorem emptyJob_first_getTask_not_exit :
    (MakeCoordinator [] 1).GetTask 0 0 =
      some (⟨TaskType.REDUCE, 0, ""⟩, ⟨[], [], [], [0], [], 1⟩) ∧
    TaskType.REDUCE ≠ TaskType.EXIT := by
  decide

/-- C8 amended: with an empty input file list (`M = 0`) and `R ≥ 1`,
the first `GetTask` call (under any pick of Go's map-iteration order)
dispatches a Reduce task in range — the map phase is trivially complete
and the job is not yet terminal, so the reply is `REDUCE`, not `EXIT`. -/
theorem emptyJob_first_getTask_reduce (R : Nat) (hR : 1 ≤ R)
    (pickM pickR : Nat) :
    ∃ y c₂, (MakeCoordinator [] R).GetTask pickM pickR =
      some (⟨TaskType.REDUCE, y, ""⟩, c₂) ∧ 0 ≤ y ∧ y < (R : Int) := by
  have hmp : (MakeCoordinator [] R).mapPending = [] := rfl
  have hmi : (MakeCoordinator [] R).mapInProgress = [] := rfl
  have hrp : (MakeCoordinator [] R).reducePending = (List.range R).map Int.ofNat :=
    rfl
  have hne : (MakeCoordinator [] R).reducePending ≠ [] := by
    rw [hrp]
    simp only [ne_eq, List.map_eq_nil_iff, List.range_eq_nil]
    omega
  have hd : ¬ (MakeCoordinator [] R).Done = true := fun hdt =>
    hne ((done_iff _).mp hdt).2.2.1
  have hlen : (MakeCoordinator [] R).reducePending.length = R := by
    rw [hrp, List.length_map, List.length_range]
  have hn : pickR % (MakeCoordinator [] R).reducePending.length <
      (MakeCoordinator [] R).reducePending.length := by
    rw [hlen]
    exact Nat.mod_lt _ (by omega)
  have hget : (MakeCoordinator [] R).reducePending[pickR %
      (MakeCoordinator [] R).reducePending.length]? =
      some (Int.ofNat (pickR % R)) := by
    rw [hlen, hrp, List.getElem?_map,
      List.getElem?_range (Nat.mod_lt _ (show 0 < R by omega))]
    rfl
  refine ⟨Int.ofNat (pickR % R),
    { MakeCoordinator [] R with
        reducePending :=
          eraseR (MakeCoordinator [] R).reducePending (Int.ofNat (pickR % R))
        reduceInProgress :=
          insertR (MakeCoordinator [] R).reduceInProgress (Int.ofNat (pickR % R)) },
    ?_, ?_, ?_⟩
  · unfold Coordinator.GetTask
    rw [if_neg hd]
    simp only [hmp, List.getElem?_nil, hmi, List.isEmpty_nil, if_true, hget]
  · exact Int.ofNat_nonneg _
  · simp only [Int.ofNat_eq_coe]
    exact_mod_cast Nat.mod_lt pickR (show 0 < R by omega)

/-- C8 witness (for the amended claim): the concrete empty job with
`R = 1`. -/
theorem emptyJob_first_getTask_reduce_witness :
    ∃ y c₂, (MakeCoordinator [] 1).GetTask 0 0 =
      some (⟨TaskType.REDUCE, y, ""⟩, c₂) ∧ 0 ≤ y ∧ y < ((1 : Nat) : Int) :=
  emptyJob_first_getTask_reduce 1 le_rfl 0 0

/-! ## Worker: Map partitioning -/

theorem buildBuckets_eq_filter (R : Nat) (kva : List KeyValue) (y : Nat) :
    buildBuckets R kva y = kva.filter (fun kv => ihash kv.Key % R == y) := by
  suffices h : ∀ (l : List KeyValue) (m : Nat → List KeyValue) (z : Nat),
      (l.foldl (fun m kv => addToBucket m (ihash kv.Key % R) kv) m) z =
        m z ++ l.filter (fun kv => ihash kv.Key % R == z) by
    simpa using h kva (fun _ => []) y
  intro l
  induction l with
  | nil =>
      intro m z
      simp
  | cons kv rest ih =>
      intro m z
      rw [List.foldl_cons, ih, List.filter_cons]
      by_cases hb : ihash kv.Key % R = z
      · rw [hb]
        simp [addToBucket]
      · have hbeq : (ihash kv.Key % R == z) = false :=
          beq_eq_false_iff_ne.mpr hb
        rw [hbeq]
        simp only [addToBucket, if_neg (Ne.symm hb)]
        simp

theorem lookup_filterMap_none {β : Type} (g : Nat → Option β) (l : List Nat)
    (y : Nat) (hy : y ∉ l) :
    (l.filterMap (fun z => (g z).map (fun v => (z, v)))).lookup y = none := by
  induction l with
  | nil => rfl
  | cons a as ih =>
      have hya : y ≠ a := fun h => hy (h ▸ List.mem_cons_self a as)
      have hyas : y ∉ as := fun h => hy (List.mem_cons_of_mem a h)
      rcases hg : g a with _ | v
      · simp only [List.filterMap_cons, hg, Option.map_none']
        exact ih hyas
      · simp only [List.filterMap_cons, hg, Option.map_some', List.lookup_cons,
          beq_eq_false_iff_ne.mpr hya]
        exact ih hyas

theorem lookup_filterMap_key {β : Type} (g : Nat → Option β) (l : List Nat)
    (hnd : l.Nodup) (y : Nat) (hy : y ∈ l) :
    (l.filterMap (fun z => (g z).map (fun v => (z, v)))).lookup y = g y := by
  induction l with
  | nil => cases hy
  | cons a as ih =>
      obtain ⟨hnota, hndas⟩ := List.nodup_cons.mp hnd
      rcases List.mem_cons.mp hy with rfl | hmem
      · rcases hg : g y with _ | v
        · simp only [List.filterMap_cons, hg, Option.map_none']
          exact lookup_filterMap_none g as y hnota
        · simp only [List.filterMap_cons, hg, Option.map_some', List.lookup_cons,
            beq_self_eq_true]
      · have hne : y ≠ a := fun h => hnota (h ▸ hmem)
        rcases hg : g a with _ | v
        · simp only [List.filterMap_cons, hg, Option.map_none']
          exact ih hndas hmem
        · simp only [List.filterMap_cons, hg, Option.map_some', List.lookup_cons,
            beq_eq_false_iff_ne.mpr hne]
          exact ih hndas hmem

/-- C6.  Map partitioning: for a Map task `x` with fan-out `R` and any
bucket `y < R`, the file set written by the Map case holds, under the
name `mr-x-y`, exactly the emitted pairs whose key satisfies
`ihash(key) % R = y` (each exactly once, in emission order), and no
entry at all when no pair hashes to `y`; moreover only buckets `< R`
are ever written. -/
theorem mapTask_partitioning (x : Int) (R : Nat) (kva : List KeyValue)
    (y : Nat) (hy : y < R) :
    ((mapTaskFiles x R kva).lookup y =
      (if (kva.filter (fun kv => ihash kv.Key % R == y)).isEmpty then none
       else some (intermediateName x y,
         kva.filter (fun kv => ihash kv.Key % R == y)))) ∧
    (∀ e ∈ mapTaskFiles x R kva, e.1 < R) := by
  constructor
  · have hform : mapTaskFiles x R kva =
        (List.range R).filterMap (fun z =>
          ((fun z => if (buildBuckets R kva z).isEmpty then none
            else some (intermediateName x z, buildBuckets R kva z)) z).map
            (fun v => (z, v))) := by
      unfold mapTaskFiles
      congr 1
      funext z
      by_cases hz : (buildBuckets R kva z).isEmpty <;> simp [hz]
    rw [hform, lookup_filterMap_key _ _ (List.nodup_range R) y
      (List.mem_range.mpr hy), buildBuckets_eq_filter]
  · intro e he
    unfold mapTaskFiles at he
    obtain ⟨z, hz, hze⟩ := List.mem_filterMap.mp he
    by_cases hb : (buildBuckets R kva z).isEmpty
    · rw [if_pos hb] at hze
      exact Option.noConfusion hze
    · rw [if_neg hb] at hze
      cases hze
      exact List.mem_range.mp hz

/-- C6 witness: two pairs with keys `a` and `b` and `R = 2` land in the
two distinct intermediate files. -/
theorem mapTask_partitioning_witness :
    ((mapTaskFiles 0 2 [⟨"a", "1"⟩, ⟨"b", "2"⟩]).lookup 0 =
      (if ([⟨"a", "1"⟩, ⟨"b", "2"⟩].filter
            (fun kv : KeyValue => ihash kv.Key % 2 == 0)).isEmpty then none
       else some (intermediateName 0 0,
         [⟨"a", "1"⟩, ⟨"b", "2"⟩].filter
           (fun kv : KeyValue => ihash kv.Key % 2 == 0)))) ∧
    (∀ e ∈ mapTaskFiles 0 2 [⟨"a", "1"⟩, ⟨"b", "2"⟩], e.1 < 2) :=
  mapTask_partitioning 0 2 [⟨"a", "1"⟩, ⟨"b", "2"⟩] 0 (by decide)

/-! ## Worker: Reduce output -/

theorem leKey_trans (a b c : KeyValue) (h1 : decide (a.Key ≤ b.Key) = true)
    (h2 : decide (b.Key ≤ c.Key) = true) : decide (a.Key ≤ c.Key) = true := by
  simp only [decide_eq_true_eq] at h1 h2 ⊢
  exact le_trans h1 h2

theorem leKey_total (a b : KeyValue) :
    (decide (a.Key ≤ b.Key) || decide (b.Key ≤ a.Key)) = true := by
  simp only [Bool.or_eq_true, decide_eq_true_eq]
  exact le_total a.Key b.Key

theorem sortByKey_sorted (kva : List KeyValue) :
    List.Pairwise (fun a b : KeyValue => a.Key ≤ b.Key) (sortByKey kva) := by
  have h := List.sorted_mergeSort leKey_trans leKey_total kva
  exact h.imp (fun hab => by simpa using hab)

theorem sortByKey_perm (kva : List KeyValue) : (sortByKey kva).Perm kva :=
  List.mergeSort_perm kva _

/-- Stability of the modelled sort with respect to a fixed key: the
pairs carrying key `k` appear in the sorted list exactly as they appear
in the decoded input. -/
theorem sortByKey_filter (kva : List KeyValue) (k : String) :
    (sortByKey kva).filter (fun x => x.Key == k) =
      kva.filter (fun x => x.Key == k) := by
  have hpair : List.Pairwise
      (fun a b : KeyValue => decide (a.Key ≤ b.Key) = true)
      (kva.filter (fun x => x.Key == k)) := by
    apply List.pairwise_of_forall_mem_list
    intro a ha b hb
    have hak : a.Key = k := by simpa using (List.mem_filter.mp ha).2
    have hbk : b.Key = k := by simpa using (List.mem_filter.mp hb).2
    simp [hak, hbk]
  have hsub : (kva.filter (fun x => x.Key == k)).Sublist (sortByKey kva) :=
    List.sublist_mergeSort leKey_trans leKey_total hpair (List.filter_sublist kva)
  have h1 := List.Sublist.filter (fun x : KeyValue => x.Key == k) hsub
  have h2 : (kva.filter (fun x => x.Key == k)).filter (fun x => x.Key == k) =
      kva.filter (fun x => x.Key == k) :=
    List.filter_eq_self.mpr (fun a ha => (List.mem_filter.mp ha).2)
  rw [h2] at h1
  have hperm : ((sortByKey kva).filter (fun x => x.Key == k)).Perm
      (kva.filter (fun x => x.Key == k)) :=
    (sortByKey_perm kva).filter _
  exact (h1.eq_of_length hperm.length_eq.symm).symm

theorem dropWhile_head_not {α : Type} (p : α → Bool) (l : List α) (a : α)
    (t : List α) (h : l.dropWhile p = a :: t) : p a = false := by
  induction l with
  | nil => simp at h
  | cons b bs ih =>
      rw [List.dropWhile_cons] at h
      by_cases hpb : p b = true
      · rw [if_pos hpb] at h
        exact ih h
      · rw [if_neg hpb] at h
        cases h
        simpa using hpb

theorem joinLines_congr (reducef : String → List String → String)
    (src1 src2 : List KeyValue) (ks : List String)
    (h : ∀ k ∈ ks, src1.filter (fun x => x.Key == k) =
      src2.filter (fun x => x.Key == k)) :
    joinLines reducef src1 ks = joinLines reducef src2 ks := by
  induction ks with
  | nil => rfl
  | cons k ks ih =>
      rw [joinLines, joinLines, h k (List.mem_cons_self k ks),
        ih (fun k2 hk2 => h k2 (List.mem_cons_of_mem k hk2))]

/-- The grouping loop on a key-sorted list produces, for the strictly
increasing list of its distinct keys, one line per key built from that
key's values. -/
theorem reduceGroupLoop_spec (reducef : String → List String → String)
    (l : List KeyValue) :
    List.Pairwise (fun a b : KeyValue => a.Key ≤ b.Key) l →
    ∃ ks : List String,
      List.Pairwise (fun a b : String => a < b) ks ∧
      (∀ k, k ∈ ks ↔ k ∈ l.map KeyValue.Key) ∧
      reduceGroupLoop reducef l = joinLines reducef l ks := by
  induction l using reduceGroupLoop.induct reducef with
  | case1 =>
      intro _
      refine ⟨[], List.Pairwise.nil, by simp, ?_⟩
      rw [reduceGroupLoop]
      rfl
  | case2 kv rest ih =>
      intro hs
      have hs_head : ∀ x ∈ rest, kv.Key ≤ x.Key := fun x hx =>
        List.rel_of_pairwise_cons hs hx
      have hs_tail : List.Pairwise (fun a b : KeyValue => a.Key ≤ b.Key) rest :=
        (List.pairwise_cons.mp hs).2
      have hs2 : List.Pairwise (fun a b : KeyValue => a.Key ≤ b.Key)
          (rest.dropWhile (fun x => x.Key == kv.Key)) :=
        List.Pairwise.sublist (List.dropWhile_sublist _) hs_tail
      obtain ⟨ks, hchain, hmem, heq⟩ := ih hs2
      have hF1 : ∀ x ∈ rest.takeWhile (fun x => x.Key == kv.Key),
          x.Key = kv.Key := by
        intro x hx
        simpa using List.mem_takeWhile_imp hx
      have hF2 : ∀ x ∈ rest.dropWhile (fun x => x.Key == kv.Key),
          kv.Key < x.Key := by
        rcases hr2 : rest.dropWhile (fun x => x.Key == kv.Key) with _ | ⟨h2, t2⟩
        · intro x hx
          rw [hr2] at hx
          exact absurd hx (List.not_mem_nil x)
        · have hh2mem : h2 ∈ rest := by
            refine (List.dropWhile_sublist
              (fun x : KeyValue => x.Key == kv.Key)).subset ?_
            rw [hr2]
            exact List.mem_cons_self h2 t2
          have hpf := dropWhile_head_not (fun x : KeyValue => x.Key == kv.Key)
            rest h2 t2 hr2
          have hne : h2.Key ≠ kv.Key := by simpa using hpf
          have hlt : kv.Key < h2.Key :=
            lt_of_le_of_ne (hs_head h2 hh2mem) (fun h => hne h.symm)
          intro x hx
          rw [hr2] at hx
          rcases List.mem_cons.mp hx with h0 | hxt
          · rw [h0]
            exact hlt
          · have hs2c : List.Pairwise (fun a b : KeyValue => a.Key ≤ b.Key)
                (h2 :: t2) := hr2 ▸ hs2
            exact lt_of_lt_of_le hlt (List.rel_of_pairwise_cons hs2c hxt)
      have hsplit : rest.takeWhile (fun x => x.Key == kv.Key) ++
          rest.dropWhile (fun x => x.Key == kv.Key) = rest :=
        List.takeWhile_append_dropWhile _ _
      have hkv_lt : ∀ k ∈ ks, kv.Key < k := by
        intro k hk
        obtain ⟨x, hx, hxk⟩ := List.mem_map.mp ((hmem k).mp hk)
        rw [← hxk]
        exact hF2 x hx
      have hfilter_self : (kv :: rest).filter (fun x => x.Key == kv.Key) =
          kv :: rest.takeWhile (fun x => x.Key == kv.Key) := by
        have htk : ∀ a ∈ rest.takeWhile (fun x : KeyValue => x.Key == kv.Key),
            (a.Key == kv.Key) = true := by
          intro a ha
          exact List.mem_takeWhile_imp
            (p := fun x : KeyValue => x.Key == kv.Key) ha
        rw [List.filter_cons]
        simp only [beq_self_eq_true, if_true]
        congr 1
        conv_lhs => rw [← hsplit]
        rw [List.filter_append,
          List.filter_eq_self.mpr htk,
          List.filter_eq_nil_iff.mpr (fun a ha => by
            simp only [beq_iff_eq]
            exact ne_of_gt (hF2 a ha)),
          List.append_nil]
      have hfilter_other : ∀ k ∈ ks,
          (kv :: rest).filter (fun x => x.Key == k) =
          (rest.dropWhile (fun x => x.Key == kv.Key)).filter
            (fun x => x.Key == k) := by
        intro k hk
        have hkne : kv.Key ≠ k := ne_of_lt (hkv_lt k hk)
        have hb : (kv.Key == k) = false := beq_eq_false_iff_ne.mpr hkne
        rw [List.filter_cons]
        simp only [hb, Bool.false_eq_true, if_false]
        conv_lhs => rw [← hsplit]
        rw [List.filter_append,
          List.filter_eq_nil_iff.mpr (fun a ha => by
            simp only [beq_iff_eq]
            rw [hF1 a ha]
            exact hkne),
          List.nil_append]
      refine ⟨kv.Key :: ks, List.pairwise_cons.mpr ⟨hkv_lt, hchain⟩, ?_, ?_⟩
      · intro k
        simp only [List.mem_cons, List.map_cons]
        constructor
        · rintro (h0 | hk)
          · exact Or.inl h0
          · obtain ⟨x, hx, hxk⟩ := List.mem_map.mp ((hmem k).mp hk)
            exact Or.inr (List.mem_map.mpr
              ⟨x, (List.dropWhile_sublist _).subset hx, hxk⟩)
        · rintro (h0 | hk)
          · exact Or.inl h0
          · obtain ⟨x, hx, hxk⟩ := List.mem_map.mp hk
            rw [← hsplit] at hx
            rcases List.mem_append.mp hx with hxt | hxd
            · exact Or.inl (by rw [← hxk, hF1 x hxt])
            · exact Or.inr ((hmem k).mpr
                (List.mem_map.mpr ⟨x, hxd, hxk⟩))
      · have hcongr := joinLines_congr reducef (kv :: rest)
          (rest.dropWhile (fun x => x.Key == kv.Key)) ks hfilter_other
        conv_lhs => rw [reduceGroupLoop]
        rw [joinLines, hfilter_self, List.map_cons, hcongr, heq]

/-- C7.  Reduce output: the contents of `mr-out-y` consist of exactly
one line per distinct key of the decoded records, each line being
`<key><SPACE><reducef key values><LF>` where `values` is the list of
all of that key's values from the decoded records, with the keys in
strictly ascending lexicographic order and nothing else in the file. -/
theorem reduce_output_characterization (reducef : String → List String → String)
    (kva : List KeyValue) :
    ∃ ks : List String,
      List.Pairwise (fun a b : String => a < b) ks ∧
      (∀ k, k ∈ ks ↔ k ∈ kva.map KeyValue.Key) ∧
      reduceTaskOutput reducef kva = joinLines reducef kva ks := by
  obtain ⟨ks, hchain, hmem, heq⟩ :=
    reduceGroupLoop_spec reducef (sortByKey kva) (sortByKey_sorted kva)
  refine ⟨ks, hchain, ?_, ?_⟩
  · intro k
    rw [hmem k]
    exact ((sortByKey_perm kva).map KeyValue.Key).mem_iff
  · rw [reduceTaskOutput, heq]
    exact joinLines_congr reducef (sortByKey kva) kva ks
      (fun k _ => sortByKey_filter kva k)

end MapReduce
